import Mathlib

/-!
Wrapper verification in `drip_auth.cpp`.

A shallow embedding of `src/drip_auth.cpp`.

* `std::string` is a `List Char`, `vector<unsigned char>` a `List Byte` with
  `Byte = Fin 256`.
* The character functions are those of the "C" locale.
* `crypto_sign_verify_detached` is a parameter `prim` of the functions that call it.
* The clock is a parameter: the functions that read it take the number of
  microseconds that elapsed between their two readings.
* Undefined behaviour (an index out of range, signed overflow) and a thrown
  exception are explicit: such code returns `Option` or `Except`.
-/

namespace DripAuth

/-- An `unsigned char`. -/
abbrev Byte := Fin 256

/-! ## Configuration (lines 15-17) -/

def DET_HEX : List Char := "2001003FFE040105e4c6ae84e5970447".toList

def PUBKEY_HEX : List Char :=
  "8929f7b90f585512a3a4c884eb6dce08c0280a3f0654ad4f4ccac646c00400ad".toList

def WRAPPER_HEX : List Char :=
  "4525f2675533f267445249502f312e30001666fed3ab0263f191c36bb24508ef913c551130488edd1d2e774b3d52524ca32001003ffe040105e4c6ae84e59704476cc7a5455eb663aeb367c102c2136e300e74a47ab3cc500539d6a5b3cb13761f092403326a98046ee8a79aa33f5d4f87219e7437902334b89230345057f53007".toList

/-! ## Character functions of the C library -/

/-- The function `tolower` of `<cctype>`: `A`..`Z` go to `a`..`z`, every other
character is unchanged. -/
def tolower (c : Char) : Char :=
  if 65 ≤ c.toNat ∧ c.toNat ≤ 90 then Char.ofNat (c.toNat + 32) else c

/-- The function `toupper` of `<cctype>`; the source does not call it, it is
used to state what `compare_hex` does on an upper-cased string. -/
def toupper (c : Char) : Char :=
  if 97 ≤ c.toNat ∧ c.toNat ≤ 122 then Char.ofNat (c.toNat - 32) else c

/-- The function `isspace`: space, `\t`, `\n`, `\v`, `\f`, `\r`. -/
def isspace (c : Char) : Bool :=
  c.toNat = 32 ∨ (9 ≤ c.toNat ∧ c.toNat ≤ 13)

/-- Value of a character as a base-16 digit, as `strtoul` reads it. -/
def digit16 (c : Char) : Option Nat :=
  if 48 ≤ c.toNat ∧ c.toNat ≤ 57 then some (c.toNat - 48)
  else if 97 ≤ c.toNat ∧ c.toNat ≤ 102 then some (c.toNat - 87)
  else if 65 ≤ c.toNat ∧ c.toNat ≤ 70 then some (c.toNat - 55)
  else none

/-! ## compare_hex (lines 19-26) -/

/-- The loop of `compare_hex` on the characters from the current index on:
the first pair that differs after `tolower` returns `false`. -/
def compare_hex_loop : List Char → List Char → Bool
  | c1 :: r1, c2 :: r2 => if tolower c1 ≠ tolower c2 then false else compare_hex_loop r1 r2
  | _, _ => true

/-- Case-insensitive hex comparison. -/
def compare_hex (hex1 hex2 : List Char) : Bool :=
  if hex1.length ≠ hex2.length then false
  else compare_hex_loop hex1 hex2

/-! ## std::stoul(str, nullptr, 16) -/

/-- The two exceptions `std::stoul` throws. -/
inductive StoulError where
  | invalid_argument
  | out_of_range
  deriving DecidableEq, Repr

deriving instance DecidableEq for Except

/-- The value of `ULONG_MAX` for a 64-bit `unsigned long`. -/
def ULONG_MAX : Nat := 2 ^ 64 - 1

/-- Values of the longest run of base-16 digits at the head of a string. -/
def digit_run : List Char → List Nat
  | [] => []
  | c :: cs =>
    match digit16 c with
    | some d => d :: digit_run cs
    | none => []

/-- Skip an optional sign; the flag says whether it was `-`. -/
def skip_sign (s : List Char) : Bool × List Char :=
  match s with
  | [] => (false, [])
  | c :: r => if c = '-' then (true, r) else if c = '+' then (false, r) else (false, c :: r)

/-- Skip a `0x` or `0X` prefix; it is part of the number only when a base-16
digit follows it, otherwise the number read is the `0`. -/
def skip_0x (s : List Char) : List Char :=
  match s with
  | z :: x :: d :: r =>
    if z = '0' ∧ (x = 'x' ∨ x = 'X') ∧ (digit16 d).isSome then d :: r else s
  | _ => s

/-- The call `std::stoul(str, nullptr, 16)`: `strtoul` in base 16 skips white
space, an optional sign and an optional `0x`, then reads the longest run of
digits and ignores what follows it. No digit: `invalid_argument`. A magnitude
above `ULONG_MAX`: `out_of_range`. A `-` negates in `unsigned long`. -/
def stoul16 (str : List Char) : Except StoulError Nat :=
  let sg := skip_sign (str.dropWhile isspace)
  let ds := digit_run (skip_0x sg.2)
  if ds.isEmpty then Except.error StoulError.invalid_argument
  else
    let v := ds.foldl (fun a d => 16 * a + d) 0
    if ULONG_MAX < v then Except.error StoulError.out_of_range
    else Except.ok (if sg.1 then (2 ^ 64 - v) % 2 ^ 64 else v)

/-! ## hex_to_bytes (lines 28-36) -/

/-- The conversion `static_cast<unsigned char>` of an `unsigned long`. -/
def to_uchar (v : Nat) : Byte := ⟨v % 256, Nat.mod_lt _ (by decide)⟩

/-- The loop `for (i = 0; i < hex.length(); i += 2)`: `hex.substr(i, 2)` is
the next two characters, or the last one alone when one is left; `stoul`
converts it and the byte is pushed. The first group `stoul` rejects throws. -/
def hex_to_bytes : List Char → Except StoulError (List Byte)
  | [] => Except.ok []
  | [c] =>
    match stoul16 [c] with
    | Except.error e => Except.error e
    | Except.ok v => Except.ok [to_uchar v]
  | c1 :: c2 :: rest =>
    match stoul16 [c1, c2] with
    | Except.error e => Except.error e
    | Except.ok v =>
      match hex_to_bytes rest with
      | Except.error e => Except.error e
      | Except.ok bytes => Except.ok (to_uchar v :: bytes)

/-! ## verify_wrapper (lines 38-82) -/

/-- The struct `VerificationResult`. `verification_time` holds the number of
microseconds the source divides by `1000.0`; `none` is the indeterminate value
of a field that was never assigned. -/
structure VerificationResult where
  valid : Bool
  det : List Char
  verification_time : Option Int
  deriving DecidableEq, Repr

/-- The function `crypto_sign_verify_detached(sig, m, mlen, pk)`: the buffer
`m` with its length `mlen` is one list. It returns an `int`, `0` for a
signature that verifies. -/
abbrev Primitive := List Byte → List Byte → List Byte → Int

/-- The arguments of one call of the primitive. -/
structure PrimCall where
  sig : List Byte
  m : List Byte
  pk : List Byte
  deriving DecidableEq, Repr

/-- The output `det_ss << hex << setw(2) << setfill('0') << static_cast<int>(b)`:
the lowercase base-16 digits of `b`, padded on the left with `0` to width 2. -/
def put_hex (b : Byte) : List Char :=
  List.leftpad 2 '0' (Nat.toDigits 16 b.val)

/-- The loop `for (auto b : det_bytes)` writing to `det_ss`, and `det_ss.str()`. -/
def det_to_hex : List Byte → List Char
  | [] => []
  | b :: rest => put_hex b ++ det_to_hex rest

/-- The vector `sig(wrapper.end()-64, wrapper.end())`. -/
def sig_of (wrapper : List Byte) : List Byte :=
  wrapper.drop (wrapper.length - 64)

/-- The vector `data_to_verify(wrapper.begin(), wrapper.end()-64)`. -/
def data_of (wrapper : List Byte) : List Byte :=
  wrapper.take (wrapper.length - 64)

/-- The vector `det_bytes(data_to_verify.end()-16, data_to_verify.end())`. -/
def det_bytes_of (data_to_verify : List Byte) : List Byte :=
  data_to_verify.drop (data_to_verify.length - 16)

/-- The body of `verify_wrapper`, with the list of the calls it makes to the
primitive. `elapsed` is `duration_cast<microseconds>(end - start).count()`. -/
def verify_wrapper_run (prim : Primitive) (elapsed : Int) (wrapper pubkey : List Byte) :
    VerificationResult × List PrimCall :=
  if wrapper.length < 89 then
    (VerificationResult.mk false [] none, [])
  else
    let sig := sig_of wrapper
    let data_to_verify := data_of wrapper
    let det_bytes := det_bytes_of data_to_verify
    let det := det_to_hex det_bytes
    let valid := prim sig data_to_verify pubkey == 0
    (VerificationResult.mk valid det (some elapsed), [PrimCall.mk sig data_to_verify pubkey])

/-- The value `verify_wrapper` returns. -/
def verify_wrapper (prim : Primitive) (elapsed : Int) (wrapper pubkey : List Byte) :
    VerificationResult :=
  (verify_wrapper_run prim elapsed wrapper pubkey).1

/-! ## main (lines 84-207) -/

/-- The condition of line 102 under which `main` returns 1 before the benchmark. -/
def self_test_fails (single_result : VerificationResult) : Bool :=
  !single_result.valid || !compare_hex single_result.det DET_HEX

/-- The statement `corrupted[10] ^= 0xFF` on a copy of the wrapper; `none` when
index 10 is out of range. -/
def corrupt (wrapper : List Byte) : Option (List Byte) :=
  match wrapper[10]? with
  | none => none
  | some b => some (wrapper.set 10 (to_uchar (b.val ^^^ 0xFF)))

/-- The loop of lines 114-118: `n` more times, push a corrupted copy. -/
def push_corrupted (wrapper : List Byte) : Nat → List (List Byte) → Option (List (List Byte))
  | 0, wrappers => some wrappers
  | n + 1, wrappers =>
    match corrupt wrapper with
    | none => none
    | some corrupted => push_corrupted wrapper n (wrappers ++ [corrupted])

/-- Lines 111-118: `wrappers(NUM_VALID, wrapper)` followed by `NUM_INVALID`
corrupted copies. -/
def make_wrappers (NUM_VALID NUM_INVALID : Nat) (wrapper : List Byte) :
    Option (List (List Byte)) :=
  push_corrupted wrapper NUM_INVALID (List.replicate NUM_VALID wrapper)

/-- Line 121: `results(wrappers.size())`, value-initialised elements. -/
def initial_results (n : Nat) : List VerificationResult :=
  List.replicate n (VerificationResult.mk false [] (some 0))

/-- The statement `results[i] = verify_wrapper(wrappers[i], pubkey.data())`;
`tm i` is the time the call for index `i` takes. `none` when `i` is out of
range of either vector. -/
def assign_result (prim : Primitive) (tm : Nat → Int) (wrappers : List (List Byte))
    (pubkey : List Byte) (results : List VerificationResult) (i : Nat) :
    Option (List VerificationResult) :=
  match wrappers[i]? with
  | none => none
  | some w =>
    if i < results.length then some (results.set i (verify_wrapper prim (tm i) w pubkey))
    else none

/-- Run the loop body for the indices of a list, in the order of the list. -/
def run_indices (prim : Primitive) (tm : Nat → Int) (wrappers : List (List Byte))
    (pubkey : List Byte) : List Nat → List VerificationResult → Option (List VerificationResult)
  | [], results => some results
  | i :: rest, results =>
    match assign_result prim tm wrappers pubkey results i with
    | none => none
    | some results' => run_indices prim tm wrappers pubkey rest results'

/-- Lines 126-128: `for (size_t i = 0; i < wrappers.size(); i++)`. -/
def sequential_loop (prim : Primitive) (tm : Nat → Int) (wrappers : List (List Byte))
    (pubkey : List Byte) (results : List VerificationResult) :
    Option (List VerificationResult) :=
  run_indices prim tm wrappers pubkey (List.range wrappers.length) results

/-- The conversion `static_cast<int>` of a `size_t`: modulo `2^32`, read as a
signed 32-bit number. -/
def to_int (n : Nat) : Int :=
  if n % 2 ^ 32 < 2 ^ 31 then ((n % 2 ^ 32 : Nat) : Int) else ((n % 2 ^ 32 : Nat) : Int) - 2 ^ 32

/-- The indices of the loop of line 153:
`for (int i = 0; i < static_cast<int>(wrappers.size()); i++)`. -/
def parallel_indices (wrappers : List (List Byte)) : List Nat :=
  List.range (to_int wrappers.length).toNat

/-- Lines 152-155: under `#pragma omp parallel for` the iterations run in some
order `order` of the loop's indices, each doing the same assignment. -/
def parallel_loop (prim : Primitive) (tm : Nat → Int) (wrappers : List (List Byte))
    (pubkey : List Byte) (order : List Nat) (results : List VerificationResult) :
    Option (List VerificationResult) :=
  run_indices prim tm wrappers pubkey order results

/-- The value of `INT_MAX` for a 32-bit `int`. -/
def INT_MAX : Int := 2 ^ 31 - 1

/-- The statement `x++` on an `int`; `none` on signed overflow. -/
def int_incr (x : Int) : Option Int :=
  if x < INT_MAX then some (x + 1) else none

/-- The loop of lines 134-140 from the counters `(valid_count, invalid_count)`. -/
def count_loop : List VerificationResult → Int × Int → Option (Int × Int)
  | [], counts => some counts
  | res :: rest, counts =>
    if res.valid && compare_hex res.det DET_HEX then
      match int_incr counts.1 with
      | none => none
      | some valid_count => count_loop rest (valid_count, counts.2)
    else
      match int_incr counts.2 with
      | none => none
      | some invalid_count => count_loop rest (counts.1, invalid_count)

/-- Lines 132-140: both counters start at 0. -/
def count_results (results : List VerificationResult) : Option (Int × Int) :=
  count_loop results (0, 0)

/-- Lines 111-140: build the dataset, verify it sequentially, count. -/
def sequential_counts (prim : Primitive) (tm : Nat → Int) (NUM_VALID NUM_INVALID : Nat)
    (wrapper pubkey : List Byte) : Option (Int × Int) :=
  match make_wrappers NUM_VALID NUM_INVALID wrapper with
  | none => none
  | some wrappers =>
    match sequential_loop prim tm wrappers pubkey (initial_results wrappers.length) with
    | none => none
    | some results => count_results results

/-! ## Sample inputs -/

/-- A buffer of `n` bytes, byte `i` being `i mod 256`. -/
def sample_wrapper (n : Nat) : List Byte := (List.range n).map to_uchar

/-- A primitive that accepts every signature. -/
def accept_all : Primitive := fun _ _ _ => 0

/-- The bytes of `WRAPPER_HEX`, line 92. -/
def canonical_wrapper : List Byte :=
  match hex_to_bytes WRAPPER_HEX with
  | Except.ok wrapper => wrapper
  | Except.error _ => []

/-- The corrupted copy of the canonical wrapper, lines 115-116. -/
def corrupted_canonical : List Byte :=
  match corrupt canonical_wrapper with
  | some corrupted => corrupted
  | none => []

/-- Call times for a sequential run: the call for index `i` takes `i` microseconds. -/
def sample_times_seq : Nat → Int := fun i => (i : Int)

/-- Call times for a parallel run, different from the sequential ones. -/
def sample_times_par : Nat → Int := fun i => 2 * (i : Int) + 1

/-- A dataset of three wrappers: 89 bytes, 88 bytes, and the canonical one. -/
def sample_dataset : List (List Byte) :=
  [sample_wrapper 89, sample_wrapper 88, canonical_wrapper]

/-- A primitive that accepts the message of the canonical wrapper and no other. -/
def accept_canonical : Primitive :=
  fun _ m _ => if m = data_of canonical_wrapper then 0 else -1

/-! ## Vocabulary of the specification -/

/-- The groups `hex.substr(i, 2)` for `i = 0, 2, 4, ...`: consecutive pairs of
characters, and the last character alone when the length is odd. -/
def groups : List Char → List (List Char)
  | [] => []
  | [c] => [[c]]
  | c1 :: c2 :: rest => [c1, c2] :: groups rest

/-- A hexadecimal digit, of either case. -/
def is_hex_digit (c : Char) : Bool := (digit16 c).isSome

/-- The 22 hexadecimal digits. -/
def hex_chars : List Char := "0123456789abcdefABCDEF".toList

/-- The 16 lowercase hexadecimal digits. -/
def lower_hex_chars : List Char := "0123456789abcdef".toList

/-- A group that `stoul` converts: it begins with a hexadecimal digit, or it
is one white-space or sign character followed by a hexadecimal digit. -/
def group_ok : List Char → Bool
  | [c] => is_hex_digit c
  | [c1, c2] =>
    is_hex_digit c1 || ((isspace c1 || c1 == '-' || c1 == '+') && is_hex_digit c2)
  | _ => false

/-! ## Characters -/

theorem tolower_toupper (c : Char) : tolower (toupper c) = tolower c := by
  unfold toupper
  split
  · rename_i h
    have hc : c = Char.ofNat c.toNat := (Char.ofNat_toNat c).symm
    obtain ⟨h1, h2⟩ := h
    generalize c.toNat = n at hc h1 h2
    subst hc
    interval_cases n <;> decide
  · rfl

theorem tolower_tolower (c : Char) : tolower (tolower c) = tolower c := by
  unfold tolower
  split
  · rename_i h
    have hc : c = Char.ofNat c.toNat := (Char.ofNat_toNat c).symm
    obtain ⟨h1, h2⟩ := h
    generalize c.toNat = n at hc h1 h2
    subst hc
    interval_cases n <;> decide
  · rename_i h
    simp [h]

/-! ## compare_hex -/

theorem compare_hex_loop_iff (a b : List Char) (h : a.length = b.length) :
    compare_hex_loop a b = true ↔ a.map tolower = b.map tolower := by
  induction a generalizing b with
  | nil =>
    cases b with
    | nil => simp [compare_hex_loop]
    | cons y ys => simp at h
  | cons x xs ih =>
    cases b with
    | nil => simp at h
    | cons y ys =>
      have hl : xs.length = ys.length := by simpa using h
      by_cases hxy : tolower x = tolower y
      · simp [compare_hex_loop, hxy, ih ys hl]
      · simp [compare_hex_loop, hxy]

theorem compare_hex_iff_map (a b : List Char) :
    compare_hex a b = true ↔ a.map tolower = b.map tolower := by
  by_cases h : a.length = b.length
  · simp [compare_hex, h, compare_hex_loop_iff a b h]
  · have hne : a.map tolower ≠ b.map tolower := by
      intro he
      apply h
      simpa using congrArg List.length he
    simp [compare_hex, h, hne]

/-- C6: `compare_hex a b` is true exactly when `a` and `b` have the same length
and at every position the lowercased characters are equal; it is false when
the lengths differ, and true for a string compared with its own upper-cased or
lower-cased form (in either order). -/
theorem compare_hex_spec (a b : List Char) :
    (compare_hex a b = true ↔
      a.length = b.length ∧
        ∀ (i : Nat) (ha : i < a.length) (hb : i < b.length), tolower a[i] = tolower b[i]) ∧
    (a.length ≠ b.length → compare_hex a b = false) ∧
    compare_hex a (a.map toupper) = true ∧ compare_hex a (a.map tolower) = true ∧
    compare_hex (a.map toupper) a = true ∧ compare_hex (a.map tolower) a = true ∧
    compare_hex (a.map toupper) (a.map tolower) = true := by
  refine ⟨?_, ?_, ?_, ?_, ?_, ?_, ?_⟩
  · rw [compare_hex_iff_map]
    constructor
    · intro he
      have hl : a.length = b.length := by simpa using congrArg List.length he
      refine ⟨hl, fun i ha hb => ?_⟩
      have h1 : (a.map tolower)[i]? = (b.map tolower)[i]? := by rw [he]
      simpa [List.getElem?_map, List.getElem?_eq_getElem ha, List.getElem?_eq_getElem hb] using h1
    · rintro ⟨hl, hi⟩
      apply List.ext_getElem (by simpa using hl)
      intro i h1 h2
      simp only [List.length_map] at h1 h2
      simpa using hi i h1 h2
  · intro h
    simp [compare_hex, h]
  · rw [compare_hex_iff_map]; simp [Function.comp_def, tolower_toupper]
  · rw [compare_hex_iff_map]; simp [Function.comp_def, tolower_tolower]
  · rw [compare_hex_iff_map]; simp [Function.comp_def, tolower_toupper]
  · rw [compare_hex_iff_map]; simp [Function.comp_def, tolower_tolower]
  · rw [compare_hex_iff_map]; simp [Function.comp_def, tolower_toupper, tolower_tolower]

/-! ## stoul and hex_to_bytes -/

theorem digit16_lt {c : Char} {d : Nat} (h : digit16 c = some d) : d < 16 := by
  unfold digit16 at h
  split_ifs at h <;> simp at h <;> omega

theorem isspace_not_digit {c : Char} (h : isspace c = true) : digit16 c = none := by
  unfold isspace at h
  unfold digit16
  simp at h
  split_ifs <;> first | rfl | omega

theorem isspace_not_sign {c : Char} (h : isspace c = true) : c ≠ '-' ∧ c ≠ '+' := by
  constructor <;> (rintro rfl; revert h; decide)

theorem sign_not_digit {c : Char} (h : c = '-' ∨ c = '+') : digit16 c = none := by
  rcases h with rfl | rfl <;> decide

theorem stoul16_one (c : Char) :
    stoul16 [c] = match digit16 c with
      | some d => Except.ok d
      | none => Except.error StoulError.invalid_argument := by
  cases hd : digit16 c with
  | none =>
    by_cases hs : isspace c = true
    · simp [stoul16, List.dropWhile, hs, skip_sign, skip_0x, digit_run]
    · by_cases hm : c = '-'
      · simp [stoul16, List.dropWhile, hs, skip_sign, skip_0x, digit_run, hm]
      · by_cases hp : c = '+'
        · simp [stoul16, List.dropWhile, hs, skip_sign, skip_0x, digit_run, hp]
        · simp [stoul16, List.dropWhile, hs, skip_sign, skip_0x, digit_run, hm, hp, hd]
  | some d =>
    have hs : ¬ isspace c = true := fun h => by simp [isspace_not_digit h] at hd
    have hm : c ≠ '-' := fun h => by simp [sign_not_digit (Or.inl h)] at hd
    have hp : c ≠ '+' := fun h => by simp [sign_not_digit (Or.inr h)] at hd
    have hlt := digit16_lt hd
    simp [stoul16, List.dropWhile, hs, skip_sign, skip_0x, digit_run, hm, hp, hd, ULONG_MAX]
    omega

theorem stoul16_two (c1 c2 : Char) :
    stoul16 [c1, c2] =
      match digit16 c1, digit16 c2 with
      | some d1, some d2 => Except.ok (16 * d1 + d2)
      | some d1, none => Except.ok d1
      | none, some d2 =>
        if isspace c1 = true then Except.ok d2
        else if c1 = '-' then Except.ok ((2 ^ 64 - d2) % 2 ^ 64)
        else if c1 = '+' then Except.ok d2
        else Except.error StoulError.invalid_argument
      | none, none => Except.error StoulError.invalid_argument := by
  cases hd1 : digit16 c1 with
  | some d1 =>
    have hs : ¬ isspace c1 = true := fun h => by simp [isspace_not_digit h] at hd1
    have hm : c1 ≠ '-' := fun h => by simp [sign_not_digit (Or.inl h)] at hd1
    have hp : c1 ≠ '+' := fun h => by simp [sign_not_digit (Or.inr h)] at hd1
    have hlt := digit16_lt hd1
    cases hd2 : digit16 c2 with
    | some d2 =>
      have hlt2 := digit16_lt hd2
      simp [stoul16, List.dropWhile, hs, skip_sign, skip_0x, digit_run, hm, hp, hd1, hd2,
        ULONG_MAX]
      omega
    | none =>
      simp [stoul16, List.dropWhile, hs, skip_sign, skip_0x, digit_run, hm, hp, hd1, hd2,
        ULONG_MAX]
      omega
  | none =>
    have h1 := stoul16_one c2
    cases hd2 : digit16 c2 with
    | some d2 =>
      have hlt2 := digit16_lt hd2
      have hs2 : ¬ isspace c2 = true := fun h => by simp [isspace_not_digit h] at hd2
      have hm2 : c2 ≠ '-' := fun h => by simp [sign_not_digit (Or.inl h)] at hd2
      have hp2 : c2 ≠ '+' := fun h => by simp [sign_not_digit (Or.inr h)] at hd2
      by_cases hs : isspace c1 = true
      · simp [stoul16, List.dropWhile, hs, hs2, skip_sign, skip_0x, digit_run, hm2, hp2, hd2,
          ULONG_MAX]
        omega
      · by_cases hm : c1 = '-'
        · subst hm
          have hsm : isspace '-' = false := by decide
          simp [stoul16, List.dropWhile, hsm, skip_sign, skip_0x, digit_run, hd2, ULONG_MAX]
          omega
        · by_cases hp : c1 = '+'
          · subst hp
            have hsp : isspace '+' = false := by decide
            simp [stoul16, List.dropWhile, hsp, skip_sign, skip_0x, digit_run, hd2,
              ULONG_MAX]
            omega
          · simp [stoul16, List.dropWhile, hs, skip_sign, skip_0x, digit_run, hm, hp, hd1]
    | none =>
      by_cases hs : isspace c1 = true
      · by_cases hs2 : isspace c2 = true
        · simp [stoul16, List.dropWhile, hs, hs2, skip_sign, skip_0x, digit_run]
        · by_cases hm2 : c2 = '-'
          · simp [stoul16, List.dropWhile, hs, hs2, skip_sign, skip_0x, digit_run, hm2]
          · by_cases hp2 : c2 = '+'
            · simp [stoul16, List.dropWhile, hs, hs2, skip_sign, skip_0x, digit_run, hp2]
            · simp [stoul16, List.dropWhile, hs, hs2, skip_sign, skip_0x, digit_run, hm2,
                hp2, hd2]
      · by_cases hm : c1 = '-'
        · subst hm
          have hsm : isspace '-' = false := by decide
          simp [stoul16, List.dropWhile, hsm, skip_sign, skip_0x, digit_run, hd2]
        · by_cases hp : c1 = '+'
          · subst hp
            have hsp : isspace '+' = false := by decide
            simp [stoul16, List.dropWhile, hsp, skip_sign, skip_0x, digit_run, hd2]
          · simp [stoul16, List.dropWhile, hs, skip_sign, skip_0x, digit_run, hm, hp, hd1]

theorem pairs_induction {P : List Char → Prop} (h0 : P []) (h1 : ∀ c, P [c])
    (h2 : ∀ c1 c2 rest, P rest → P (c1 :: c2 :: rest)) : ∀ l, P l := by
  have key : ∀ l, P l ∧ ∀ c, P (c :: l) := by
    intro l
    induction l with
    | nil => exact ⟨h0, h1⟩
    | cons x xs ih => exact ⟨ih.2 x, fun c => h2 c x xs ih.1⟩
  exact fun l => (key l).1

theorem stoul16_group_ok_one (c : Char) :
    (group_ok [c] = true → ∃ v, stoul16 [c] = Except.ok v) ∧
    (group_ok [c] = false → stoul16 [c] = Except.error StoulError.invalid_argument) := by
  rw [stoul16_one]
  cases hd : digit16 c <;> simp [group_ok, is_hex_digit, hd]

theorem stoul16_group_ok_two (c1 c2 : Char) :
    (group_ok [c1, c2] = true → ∃ v, stoul16 [c1, c2] = Except.ok v) ∧
    (group_ok [c1, c2] = false →
      stoul16 [c1, c2] = Except.error StoulError.invalid_argument) := by
  rw [stoul16_two]
  cases hd1 : digit16 c1 <;> cases hd2 : digit16 c2 <;>
    simp [group_ok, is_hex_digit, hd1, hd2]
  · by_cases hs : isspace c1 = true
    · simp [hs]
    · by_cases hm : c1 = '-'
      · subst hm
        have hsm : isspace '-' = false := by decide
        simp [hsm]
      · by_cases hp : c1 = '+'
        · subst hp
          have hsp : isspace '+' = false := by decide
          simp [hsp]
        · simp [hs, hm, hp]

theorem hex_to_bytes_ok_of_groups (hex : List Char) :
    (∀ g ∈ groups hex, group_ok g = true) →
      ∃ bytes, hex_to_bytes hex = Except.ok bytes ∧ bytes.length = (groups hex).length := by
  induction hex using pairs_induction with
  | h0 => intro _; exact ⟨[], rfl, rfl⟩
  | h1 c =>
    intro h
    obtain ⟨v, hv⟩ := (stoul16_group_ok_one c).1 (h [c] (by simp [groups]))
    exact ⟨[to_uchar v], by simp [hex_to_bytes, hv], by simp [groups]⟩
  | h2 c1 c2 rest ih =>
    intro h
    obtain ⟨v, hv⟩ := (stoul16_group_ok_two c1 c2).1 (h [c1, c2] (by simp [groups]))
    obtain ⟨bytes, hb, hl⟩ := ih (fun g hg => h g (by simp [groups, hg]))
    exact ⟨to_uchar v :: bytes, by simp [hex_to_bytes, hv, hb], by simp [groups, hl]⟩

theorem hex_to_bytes_error_of_groups (hex : List Char) :
    (∃ g ∈ groups hex, group_ok g = false) →
      hex_to_bytes hex = Except.error StoulError.invalid_argument := by
  induction hex using pairs_induction with
  | h0 => rintro ⟨g, hg, _⟩; simp [groups] at hg
  | h1 c =>
    rintro ⟨g, hg, hbad⟩
    simp only [groups, List.mem_singleton] at hg
    subst hg
    simp [hex_to_bytes, (stoul16_group_ok_one c).2 hbad]
  | h2 c1 c2 rest ih =>
    rintro ⟨g, hg, hbad⟩
    cases hok : group_ok [c1, c2] with
    | false => simp [hex_to_bytes, (stoul16_group_ok_two c1 c2).2 hok]
    | true =>
      obtain ⟨v, hv⟩ := (stoul16_group_ok_two c1 c2).1 hok
      simp only [groups, List.mem_cons] at hg
      rcases hg with rfl | hg
      · rw [hok] at hbad; cases hbad
      · simp [hex_to_bytes, hv, ih ⟨g, hg, hbad⟩]

/-- C3 (the claim fails): the odd-length string `abc` is decoded to the bytes
`ab 0c`, and the string `1g`, whose only group is not two hexadecimal digits,
is decoded to the byte `01`. -/
theorem hex_to_bytes_accepts_malformed :
    ("abc".toList.length % 2 = 1 ∧ hex_to_bytes "abc".toList = Except.ok [0xab, 0x0c]) ∧
    (is_hex_digit 'g' = false ∧ hex_to_bytes "1g".toList = Except.ok [0x01]) := by
  decide

/-- C3 (amended): `hex_to_bytes` throws exactly when some group (two
consecutive characters, or the last character alone when the length is odd)
neither begins with a hexadecimal digit nor is a white-space or sign
character followed by a hexadecimal digit; the exception is then
`invalid_argument`. Otherwise it returns one byte per group. -/
theorem hex_to_bytes_fails_iff (hex : List Char) :
    ((∃ e, hex_to_bytes hex = Except.error e) ↔ ∃ g ∈ groups hex, group_ok g = false) ∧
    (∀ e, hex_to_bytes hex = Except.error e → e = StoulError.invalid_argument) ∧
    ((∃ bytes, hex_to_bytes hex = Except.ok bytes) ↔ ∀ g ∈ groups hex, group_ok g = true) ∧
    (∀ bytes, hex_to_bytes hex = Except.ok bytes → bytes.length = (groups hex).length) := by
  by_cases hall : ∀ g ∈ groups hex, group_ok g = true
  · obtain ⟨bytes, hb, hl⟩ := hex_to_bytes_ok_of_groups hex hall
    refine ⟨?_, ?_, ?_, ?_⟩
    · constructor
      · rintro ⟨e, he⟩; rw [hb] at he; cases he
      · rintro ⟨g, hg, hbad⟩; rw [hall g hg] at hbad; cases hbad
    · intro e he; rw [hb] at he; cases he
    · exact ⟨fun _ => hall, fun _ => ⟨bytes, hb⟩⟩
    · intro bytes' hb'; rw [hb] at hb'; cases hb'; exact hl
  · have hex' : ∃ g ∈ groups hex, group_ok g = false := by
      by_contra hcon
      apply hall
      intro g hg
      cases hok : group_ok g with
      | true => rfl
      | false => exact absurd ⟨g, hg, hok⟩ hcon
    have herr := hex_to_bytes_error_of_groups hex hex'
    refine ⟨?_, ?_, ?_, ?_⟩
    · exact ⟨fun _ => hex', fun _ => ⟨_, herr⟩⟩
    · intro e he; rw [herr] at he; cases he; rfl
    · constructor
      · rintro ⟨bytes, hb⟩; rw [herr] at hb; cases hb
      · intro h; exact absurd h hall
    · intro bytes hb; rw [herr] at hb; cases hb

/-! ## Round trips -/

set_option maxRecDepth 1000000 in
theorem put_hex_decode :
    ∀ b : Byte, (put_hex b).length = 2 ∧ stoul16 (put_hex b) = Except.ok b.val ∧
      ∀ c ∈ put_hex b, c ∈ lower_hex_chars := by
  decide

theorem to_uchar_val (b : Byte) : to_uchar b.val = b := by
  apply Fin.ext
  simp [to_uchar, Nat.mod_eq_of_lt b.isLt]

theorem det_to_hex_length (bytes : List Byte) : (det_to_hex bytes).length = 2 * bytes.length := by
  induction bytes with
  | nil => rfl
  | cons b rest ih =>
    simp only [det_to_hex, List.length_append, List.length_cons, (put_hex_decode b).1, ih]
    omega

theorem det_to_hex_lower (bytes : List Byte) : ∀ c ∈ det_to_hex bytes, c ∈ lower_hex_chars := by
  induction bytes with
  | nil => intro c hc; simp [det_to_hex] at hc
  | cons b rest ih =>
    intro c hc
    simp only [det_to_hex, List.mem_append] at hc
    rcases hc with hc | hc
    · exact (put_hex_decode b).2.2 c hc
    · exact ih c hc

/-- C4: decoding the hex encoding of a byte sequence gives the sequence back,
where the encoding is the per-byte formatting `verify_wrapper` uses for `det`. -/
theorem hex_to_bytes_det_to_hex (B : List Byte) : hex_to_bytes (det_to_hex B) = Except.ok B := by
  induction B with
  | nil => rfl
  | cons b rest ih =>
    obtain ⟨hlen, hdec, _⟩ := put_hex_decode b
    obtain ⟨c1, c2, hc⟩ := List.length_eq_two.mp hlen
    rw [hc] at hdec
    simp [det_to_hex, hc, hex_to_bytes, hdec, ih, to_uchar_val]

theorem mem_hex_chars {c : Char} (h : is_hex_digit c = true) : c ∈ hex_chars := by
  have hc : c = Char.ofNat c.toNat := (Char.ofNat_toNat c).symm
  unfold is_hex_digit digit16 at h
  generalize c.toNat = n at hc h
  subst hc
  split_ifs at h with h1 h2 h3
  · obtain ⟨ha, hb⟩ := h1
    interval_cases n <;> decide
  · obtain ⟨ha, hb⟩ := h2
    interval_cases n <;> decide
  · obtain ⟨ha, hb⟩ := h3
    interval_cases n <;> decide
  · simp at h

set_option maxRecDepth 1000000 in
theorem hex_pair_roundtrip :
    ∀ c1 ∈ hex_chars, ∀ c2 ∈ hex_chars,
      ∃ v : Nat, stoul16 [c1, c2] = Except.ok v ∧
        put_hex (to_uchar v) = [tolower c1, tolower c2] := by
  have key : ∀ c1 ∈ hex_chars, ∀ c2 ∈ hex_chars,
      stoul16 [c1, c2] = Except.ok (16 * (digit16 c1).getD 0 + (digit16 c2).getD 0) ∧
        put_hex (to_uchar (16 * (digit16 c1).getD 0 + (digit16 c2).getD 0)) =
          [tolower c1, tolower c2] := by
    decide
  intro c1 h1 c2 h2
  exact ⟨_, key c1 h1 c2 h2⟩

/-- C5: for a string `H` of even length made only of hexadecimal digits of
either case, `hex_to_bytes H` returns `len(H)/2` bytes whose encoding is `H`
with every letter lowercased; the encoding has two lowercase hexadecimal
digits per byte. -/
theorem det_to_hex_hex_to_bytes (H : List Char) (heven : H.length % 2 = 0)
    (hhex : ∀ c ∈ H, is_hex_digit c = true) :
    ∃ bytes, hex_to_bytes H = Except.ok bytes ∧ det_to_hex bytes = H.map tolower ∧
      (det_to_hex bytes).length = 2 * bytes.length ∧ bytes.length = H.length / 2 ∧
      ∀ c ∈ det_to_hex bytes, c ∈ lower_hex_chars := by
  suffices hmain : ∃ bytes, hex_to_bytes H = Except.ok bytes ∧
      det_to_hex bytes = H.map tolower ∧ bytes.length = H.length / 2 by
    obtain ⟨bytes, h1, h2, h3⟩ := hmain
    exact ⟨bytes, h1, h2, det_to_hex_length bytes, h3, det_to_hex_lower bytes⟩
  induction H using pairs_induction with
  | h0 => exact ⟨[], rfl, rfl, rfl⟩
  | h1 c => simp at heven
  | h2 c1 c2 rest ih =>
    have hev : rest.length % 2 = 0 := by
      simp only [List.length_cons] at heven
      omega
    obtain ⟨bytes, hb, hd, hl⟩ := ih hev (fun c hc => hhex c (by simp [hc]))
    obtain ⟨v, hv, hp⟩ := hex_pair_roundtrip c1 (mem_hex_chars (hhex c1 (by simp)))
      c2 (mem_hex_chars (hhex c2 (by simp)))
    refine ⟨to_uchar v :: bytes, by simp [hex_to_bytes, hv, hb], by simp [det_to_hex, hp, hd], ?_⟩
    simp only [List.length_cons, hl]
    omega

/-- C5 at the expected token `DET_HEX`, which has digits of both cases. -/
theorem det_to_hex_hex_to_bytes_witness :
    (DET_HEX.length % 2 = 0 ∧ ∀ c ∈ DET_HEX, is_hex_digit c = true) ∧
    ∃ bytes, hex_to_bytes DET_HEX = Except.ok bytes ∧
      det_to_hex bytes = DET_HEX.map tolower ∧
      (det_to_hex bytes).length = 2 * bytes.length ∧ bytes.length = DET_HEX.length / 2 ∧
      ∀ c ∈ det_to_hex bytes, c ∈ lower_hex_chars :=
  ⟨by decide, det_to_hex_hex_to_bytes DET_HEX (by decide) (by decide)⟩

/-! ## verify_wrapper -/

theorem verify_wrapper_run_short (prim : Primitive) (elapsed : Int) (wrapper pubkey : List Byte)
    (h : wrapper.length < 89) :
    verify_wrapper_run prim elapsed wrapper pubkey = (VerificationResult.mk false [] none, []) := by
  simp [verify_wrapper_run, h]

theorem verify_wrapper_run_long (prim : Primitive) (elapsed : Int) (wrapper pubkey : List Byte)
    (h : 89 ≤ wrapper.length) :
    verify_wrapper_run prim elapsed wrapper pubkey =
      (VerificationResult.mk (prim (sig_of wrapper) (data_of wrapper) pubkey == 0)
          (det_to_hex (det_bytes_of (data_of wrapper))) (some elapsed),
        [PrimCall.mk (sig_of wrapper) (data_of wrapper) pubkey]) := by
  simp [verify_wrapper_run, Nat.not_lt.mpr h]

theorem data_of_length (wrapper : List Byte) :
    (data_of wrapper).length = wrapper.length - 64 := by
  simp [data_of]

theorem sig_of_length (wrapper : List Byte) (h : 64 ≤ wrapper.length) :
    (sig_of wrapper).length = 64 := by
  simp [sig_of]
  omega

theorem data_append_sig (wrapper : List Byte) : data_of wrapper ++ sig_of wrapper = wrapper := by
  simp [data_of, sig_of]

theorem det_bytes_of_data (wrapper : List Byte) :
    det_bytes_of (data_of wrapper) = (wrapper.take (wrapper.length - 64)).drop (wrapper.length - 80) := by
  simp only [det_bytes_of, data_of_length]
  rw [data_of, Nat.sub_sub]

/-- C1: for a wrapper of length `N ≥ 89`, `verify_wrapper` calls the primitive
once, with the signature made of the last 64 bytes (indices `N-64..N-1`), the
message made of the first `N-64` bytes and the key it was given; `det` is the
hexadecimal text of the last 16 bytes of the message (indices `N-80..N-65`);
`valid` is the primitive's verdict. For `N = 89` the message has 25 bytes. -/
theorem verify_wrapper_slices (prim : Primitive) (elapsed : Int) (wrapper pubkey : List Byte)
    (h : 89 ≤ wrapper.length) :
    ∃ hdr tok sig : List Byte,
      wrapper = hdr ++ tok ++ sig ∧ tok.length = 16 ∧ sig.length = 64 ∧
      (hdr ++ tok).length = wrapper.length - 64 ∧
      verify_wrapper_run prim elapsed wrapper pubkey =
        (VerificationResult.mk (prim sig (hdr ++ tok) pubkey == 0) (det_to_hex tok)
            (some elapsed),
          [PrimCall.mk sig (hdr ++ tok) pubkey]) ∧
      (verify_wrapper prim elapsed wrapper pubkey).valid = (prim sig (hdr ++ tok) pubkey == 0) ∧
      (verify_wrapper prim elapsed wrapper pubkey).det = det_to_hex tok ∧
      (∀ k, k < 64 → sig[k]? = wrapper[wrapper.length - 64 + k]?) ∧
      (∀ k, k < wrapper.length - 64 → (hdr ++ tok)[k]? = wrapper[k]?) ∧
      (∀ k, k < 16 → tok[k]? = wrapper[wrapper.length - 80 + k]?) ∧
      (wrapper.length = 89 → (hdr ++ tok).length = 25) := by
  have hsplit : wrapper.take (wrapper.length - 80) ++ det_bytes_of (data_of wrapper) =
      data_of wrapper := by
    rw [det_bytes_of_data]
    have h1 : wrapper.take (wrapper.length - 80) =
        (wrapper.take (wrapper.length - 64)).take (wrapper.length - 80) := by
      rw [List.take_take]
      congr 1
      omega
    rw [h1, List.take_append_drop, data_of]
  have hrun := verify_wrapper_run_long prim elapsed wrapper pubkey h
  refine ⟨wrapper.take (wrapper.length - 80), det_bytes_of (data_of wrapper), sig_of wrapper,
    ?_, ?_, ?_, ?_, ?_, ?_, ?_, ?_, ?_, ?_, ?_⟩
  · rw [hsplit, data_append_sig]
  · rw [det_bytes_of_data]
    simp
    omega
  · exact sig_of_length wrapper (by omega)
  · rw [hsplit, data_of_length]
  · rw [hsplit]; exact hrun
  · rw [hsplit, verify_wrapper, hrun]
  · rw [verify_wrapper, hrun]
  · intro k _
    simp [sig_of, List.getElem?_drop]
  · intro k hk
    rw [hsplit, data_of, List.getElem?_take_of_lt hk]
  · intro k hk
    rw [det_bytes_of_data, List.getElem?_drop, List.getElem?_take_of_lt (by omega)]
  · intro hN
    rw [hsplit, data_of_length, hN]

/-! ## The verification loops -/

theorem run_indices_spec (prim : Primitive) (tm : Nat → Int) (wrappers : List (List Byte))
    (pubkey : List Byte) :
    ∀ (order : List Nat) (r0 : List VerificationResult),
      r0.length = wrappers.length → (∀ i ∈ order, i < wrappers.length) →
      ∃ r, run_indices prim tm wrappers pubkey order r0 = some r ∧
        r.length = wrappers.length ∧
        ∀ (i : Nat) (hi : i < wrappers.length),
          r[i]? = if i ∈ order then some (verify_wrapper prim (tm i) wrappers[i] pubkey)
            else r0[i]? := by
  intro order
  induction order with
  | nil =>
    intro r0 hl _
    exact ⟨r0, rfl, hl, fun i _ => by simp⟩
  | cons j rest ih =>
    intro r0 hl hmem
    have hj : j < wrappers.length := hmem j (by simp)
    have hjr : j < r0.length := by omega
    obtain ⟨r, hr, hlen, hget⟩ :=
      ih (r0.set j (verify_wrapper prim (tm j) wrappers[j] pubkey)) (by simpa using hl)
        (fun i hi => hmem i (by simp [hi]))
    refine ⟨r, ?_, hlen, ?_⟩
    · simp [run_indices, assign_result, List.getElem?_eq_getElem hj, hjr, hr]
    · intro i hi
      rw [hget i hi]
      by_cases hir : i ∈ rest
      · simp [hir]
      · by_cases hij : i = j
        · subst hij
          simp [hir, List.getElem?_set_self hjr]
        · simp [hir, hij, List.getElem?_set_ne (Ne.symm hij)]

theorem sequential_loop_spec (prim : Primitive) (tm : Nat → Int) (wrappers : List (List Byte))
    (pubkey : List Byte) (r0 : List VerificationResult) (hl : r0.length = wrappers.length) :
    ∃ r, sequential_loop prim tm wrappers pubkey r0 = some r ∧ r.length = wrappers.length ∧
      ∀ (i : Nat) (hi : i < wrappers.length),
        r[i]? = some (verify_wrapper prim (tm i) wrappers[i] pubkey) := by
  obtain ⟨r, hr, hlen, hget⟩ := run_indices_spec prim tm wrappers pubkey
    (List.range wrappers.length) r0 hl (fun i hi => List.mem_range.mp hi)
  refine ⟨r, hr, hlen, fun i hi => ?_⟩
  rw [hget i hi, if_pos (List.mem_range.mpr hi)]

theorem to_int_toNat_le (n : Nat) : (to_int n).toNat ≤ n := by
  unfold to_int
  have hmod : n % 2 ^ 32 ≤ n := Nat.mod_le _ _
  have hlt : n % 2 ^ 32 < 2 ^ 32 := Nat.mod_lt _ (by decide)
  split <;> omega

theorem initial_results_length (n : Nat) : (initial_results n).length = n := by
  simp [initial_results]

theorem verify_wrapper_time_irrelevant (prim : Primitive) (t t' : Int)
    (wrapper pubkey : List Byte) :
    (verify_wrapper prim t wrapper pubkey).valid = (verify_wrapper prim t' wrapper pubkey).valid ∧
    (verify_wrapper prim t wrapper pubkey).det = (verify_wrapper prim t' wrapper pubkey).det := by
  by_cases h : wrapper.length < 89
  · simp [verify_wrapper, verify_wrapper_run_short _ _ _ _ h]
  · simp [verify_wrapper, verify_wrapper_run_long _ _ _ _ (Nat.not_lt.mp h)]

/-- C8: the sequential loop returns an array as long as the dataset with
`results[i] = verify_wrapper(D[i])` at every index; the parallel loop, run on
that array with its iterations in any order, returns an array of the same
length whose `valid` and `det` agree with the sequential array at every
index. Run over all the indices in any order, from any array of that length,
the loop leaves `verify_wrapper(D[i])` at every index, and the loop of line 153
does visit all the indices when the size fits an `int`. -/
theorem parallel_matches_sequential (prim : Primitive) (tm_seq tm_par : Nat → Int)
    (D : List (List Byte)) (pubkey : List Byte) (order : List Nat)
    (hperm : order.Perm (parallel_indices D)) :
    ∃ seq par : List VerificationResult,
      sequential_loop prim tm_seq D pubkey (initial_results D.length) = some seq ∧
      seq.length = D.length ∧
      (∀ (i : Nat) (hi : i < D.length),
        seq[i]? = some (verify_wrapper prim (tm_seq i) D[i] pubkey)) ∧
      parallel_loop prim tm_par D pubkey order seq = some par ∧
      par.length = D.length ∧
      (∀ (i : Nat), i < D.length →
        ∃ rs rp, seq[i]? = some rs ∧ par[i]? = some rp ∧
          rp.valid = rs.valid ∧ rp.det = rs.det) ∧
      (∀ (order0 : List Nat) (r0 : List VerificationResult),
        order0.Perm (List.range D.length) → r0.length = D.length →
        ∃ par0, parallel_loop prim tm_par D pubkey order0 r0 = some par0 ∧
          par0.length = D.length ∧
          ∀ (i : Nat) (hi : i < D.length),
            par0[i]? = some (verify_wrapper prim (tm_par i) D[i] pubkey)) ∧
      (D.length < 2 ^ 31 → parallel_indices D = List.range D.length) := by
  have hbound : ∀ i ∈ order, i < D.length := by
    intro i hi
    have h1 : i ∈ parallel_indices D := hperm.mem_iff.mp hi
    have h2 : i < (to_int D.length).toNat := List.mem_range.mp h1
    exact Nat.lt_of_lt_of_le h2 (to_int_toNat_le _)
  obtain ⟨seq, hseq, hslen, hsget⟩ := sequential_loop_spec prim tm_seq D pubkey
    (initial_results D.length) (initial_results_length _)
  obtain ⟨par, hpar, hplen, hpget⟩ := run_indices_spec prim tm_par D pubkey order seq hslen hbound
  refine ⟨seq, par, hseq, hslen, hsget, hpar, hplen, ?_, ?_, ?_⟩
  · intro i hi
    by_cases hio : i ∈ order
    · refine ⟨verify_wrapper prim (tm_seq i) D[i] pubkey,
        verify_wrapper prim (tm_par i) D[i] pubkey, hsget i hi, ?_, ?_⟩
      · rw [hpget i hi, if_pos hio]
      · exact verify_wrapper_time_irrelevant prim (tm_par i) (tm_seq i) D[i] pubkey
    · refine ⟨verify_wrapper prim (tm_seq i) D[i] pubkey,
        verify_wrapper prim (tm_seq i) D[i] pubkey, hsget i hi, ?_, rfl, rfl⟩
      rw [hpget i hi, if_neg hio, hsget i hi]
  · intro order0 r0 hperm0 hr0
    obtain ⟨par0, hp0, hl0, hg0⟩ := run_indices_spec prim tm_par D pubkey order0 r0 hr0
      (fun i hi => List.mem_range.mp (hperm0.mem_iff.mp hi))
    refine ⟨par0, hp0, hl0, fun i hi => ?_⟩
    rw [hg0 i hi, if_pos (hperm0.mem_iff.mpr (List.mem_range.mpr hi))]
  · intro hsmall
    have h1 : D.length % 2 ^ 32 = D.length := Nat.mod_eq_of_lt (by omega)
    simp only [parallel_indices, to_int, h1, if_pos hsmall, Int.toNat_ofNat]

/-! ## The dataset and the counters -/

theorem push_corrupted_eq (wrapper corrupted : List Byte) (hc : corrupt wrapper = some corrupted) :
    ∀ (n : Nat) (wrappers : List (List Byte)),
      push_corrupted wrapper n wrappers = some (wrappers ++ List.replicate n corrupted) := by
  intro n
  induction n with
  | zero => intro wrappers; simp [push_corrupted]
  | succ n ih =>
    intro wrappers
    simp [push_corrupted, hc, ih, List.replicate_succ]

theorem count_loop_valid_run (rs tail : List VerificationResult) :
    ∀ (v iv : Int), (∀ r ∈ rs, (r.valid && compare_hex r.det DET_HEX) = true) →
      v + rs.length ≤ INT_MAX →
      count_loop (rs ++ tail) (v, iv) = count_loop tail (v + rs.length, iv) := by
  induction rs with
  | nil => intro v iv _ _; simp
  | cons r rs ih =>
    intro v iv hgood hb
    have hr := hgood r (by simp)
    have hlen : ((r :: rs).length : Int) = (rs.length : Int) + 1 := by simp
    rw [hlen] at hb
    have hv : v < INT_MAX := by omega
    have hstep : count_loop (r :: (rs ++ tail)) (v, iv) = count_loop (rs ++ tail) (v + 1, iv) := by
      simp [count_loop, hr, int_incr, hv]
    rw [List.cons_append, hstep, ih (v + 1) iv (fun x hx => hgood x (by simp [hx])) (by omega),
      hlen]
    congr 2
    omega

theorem count_loop_invalid_run (rs tail : List VerificationResult) :
    ∀ (v iv : Int), (∀ r ∈ rs, (r.valid && compare_hex r.det DET_HEX) = false) →
      iv + rs.length ≤ INT_MAX →
      count_loop (rs ++ tail) (v, iv) = count_loop tail (v, iv + rs.length) := by
  induction rs with
  | nil => intro v iv _ _; simp
  | cons r rs ih =>
    intro v iv hbad hb
    have hr := hbad r (by simp)
    have hlen : ((r :: rs).length : Int) = (rs.length : Int) + 1 := by simp
    rw [hlen] at hb
    have hv : iv < INT_MAX := by omega
    have hstep : count_loop (r :: (rs ++ tail)) (v, iv) = count_loop (rs ++ tail) (v, iv + 1) := by
      simp [count_loop, hr, int_incr, hv]
    rw [List.cons_append, hstep, ih v (iv + 1) (fun x hx => hbad x (by simp [hx])) (by omega),
      hlen]
    congr 2
    omega

theorem corrupt_eq (wrapper : List Byte) (h : 10 < wrapper.length) :
    corrupt wrapper = some (wrapper.set 10 (to_uchar (wrapper[10].val ^^^ 0xFF))) := by
  simp [corrupt, List.getElem?_eq_getElem h]

theorem corrupt_length (wrapper corrupted : List Byte) (hc : corrupt wrapper = some corrupted) :
    corrupted.length = wrapper.length := by
  unfold corrupt at hc
  split at hc
  · cases hc
  · cases hc
    simp

theorem sequential_loop_getElem? (prim : Primitive) (tm : Nat → Int) (wrappers : List (List Byte))
    (pubkey : List Byte) (r : List VerificationResult)
    (hget : ∀ (i : Nat) (hi : i < wrappers.length),
      r[i]? = some (verify_wrapper prim (tm i) wrappers[i] pubkey))
    (i : Nat) (w : List Byte) (hw : wrappers[i]? = some w) :
    r[i]? = some (verify_wrapper prim (tm i) w pubkey) := by
  obtain ⟨hi, hwi⟩ := List.getElem?_eq_some_iff.mp hw
  rw [hget i hi, hwi]

/-- C7: for a wrapper of at least 89 bytes whose token matches `DET_HEX`, which
the primitive accepts and whose corrupted copy the primitive rejects, and for
counts `V` and `C` that fit an `int`, the dataset is `V` copies of the wrapper
followed by `C` corrupted copies, and the counting loop over the sequential
results ends with `valid_count = V` and `invalid_count = C`. -/
theorem sequential_counts_spec (prim : Primitive) (tm : Nat → Int) (V C : Nat)
    (wrapper pubkey : List Byte) (hlen : 89 ≤ wrapper.length)
    (htok : compare_hex (verify_wrapper prim 0 wrapper pubkey).det DET_HEX = true)
    (hacc : prim (sig_of wrapper) (data_of wrapper) pubkey = 0)
    (hrej : ∀ c, corrupt wrapper = some c → prim (sig_of c) (data_of c) pubkey ≠ 0)
    (hV : (V : Int) ≤ INT_MAX) (hC : (C : Int) ≤ INT_MAX) :
    ∃ corrupted, corrupt wrapper = some corrupted ∧
      make_wrappers V C wrapper =
        some (List.replicate V wrapper ++ List.replicate C corrupted) ∧
      sequential_counts prim tm V C wrapper pubkey = some ((V : Int), (C : Int)) := by
  have hcor := corrupt_eq wrapper (by omega)
  refine ⟨_, hcor, ?_, ?_⟩
  · exact push_corrupted_eq wrapper _ hcor C _
  generalize hcdef : wrapper.set 10 (to_uchar (wrapper[10].val ^^^ 0xFF)) = corrupted at hcor
  have hclen : 89 ≤ corrupted.length := by rw [corrupt_length wrapper corrupted hcor]; exact hlen
  have hmk : make_wrappers V C wrapper =
      some (List.replicate V wrapper ++ List.replicate C corrupted) :=
    push_corrupted_eq wrapper corrupted hcor C _
  obtain ⟨seq, hseq, hslen, hsget⟩ := sequential_loop_spec prim tm
    (List.replicate V wrapper ++ List.replicate C corrupted) pubkey
    (initial_results _) (initial_results_length _)
  have hget := sequential_loop_getElem? prim tm _ pubkey seq hsget
  have hN : seq.length = V + C := by simpa using hslen
  have hgood : ∀ r ∈ seq.take V, (r.valid && compare_hex r.det DET_HEX) = true := by
    intro r hr
    obtain ⟨i, hi⟩ := List.mem_iff_getElem?.mp hr
    rw [List.getElem?_take] at hi
    split at hi
    · rename_i hiV
      have hw : (List.replicate V wrapper ++ List.replicate C corrupted)[i]? = some wrapper := by
        rw [List.getElem?_append_left (by simpa using hiV)]
        simp [hiV]
      rw [hget i wrapper hw] at hi
      cases hi
      have ht := (verify_wrapper_time_irrelevant prim (tm i) 0 wrapper pubkey).2
      rw [ht, htok]
      simp [verify_wrapper, verify_wrapper_run_long _ _ _ _ hlen, hacc]
    · cases hi
  have hbad : ∀ r ∈ seq.drop V, (r.valid && compare_hex r.det DET_HEX) = false := by
    intro r hr
    obtain ⟨i, hi⟩ := List.mem_iff_getElem?.mp hr
    rw [List.getElem?_drop] at hi
    have hiC : i < C := by
      have := (List.getElem?_eq_some_iff.mp hi).1
      omega
    have hw : (List.replicate V wrapper ++ List.replicate C corrupted)[V + i]? =
        some corrupted := by
      rw [List.getElem?_append_right (by simp)]
      simp [hiC]
    rw [hget (V + i) corrupted hw] at hi
    cases hi
    simp [verify_wrapper, verify_wrapper_run_long _ _ _ _ hclen, hrej corrupted hcor]
  have hcount : count_results seq = some ((V : Int), (C : Int)) := by
    have htl : (seq.take V).length = V := by simp [hN]
    have hdl : (seq.drop V).length = C := by simp [hN]
    have h1 := count_loop_valid_run (seq.take V) (seq.drop V) 0 0 hgood
      (by rw [htl]; simpa using hV)
    have h2 := count_loop_invalid_run (seq.drop V) [] (0 + (seq.take V).length) 0 hbad
      (by rw [hdl]; simpa using hC)
    rw [List.append_nil] at h2
    rw [List.take_append_drop] at h1
    rw [count_results, h1, h2, htl, hdl]
    simp [count_loop]
  simp only [sequential_counts, hmk, List.length_append, List.length_replicate] at hseq ⊢
  rw [hseq]
  exact hcount

/-! ## Wrappers below the minimum length -/

/-- C2: for a wrapper shorter than 89 bytes `verify_wrapper` returns
`valid = false` and an empty `det` and makes no call to the primitive; in a
dataset the sequential loop still returns the whole result array, with this
result at the item's index, and the counting loop counts it as invalid. -/
theorem verify_wrapper_too_short (prim : Primitive) (elapsed : Int) (wrapper pubkey : List Byte)
    (h : wrapper.length < 89) :
    verify_wrapper_run prim elapsed wrapper pubkey = (VerificationResult.mk false [] none, []) ∧
    (verify_wrapper prim elapsed wrapper pubkey).valid = false ∧
    (verify_wrapper prim elapsed wrapper pubkey).det = [] ∧
    (∀ (tm : Nat → Int) (wrappers : List (List Byte)) (i : Nat), wrappers[i]? = some wrapper →
      ∃ results, sequential_loop prim tm wrappers pubkey (initial_results wrappers.length) =
          some results ∧
        results.length = wrappers.length ∧
        results[i]? = some (VerificationResult.mk false [] none)) ∧
    (∀ (rest : List VerificationResult) (valid_count invalid_count : Int),
      invalid_count < INT_MAX →
      count_loop (verify_wrapper prim elapsed wrapper pubkey :: rest)
          (valid_count, invalid_count) =
        count_loop rest (valid_count, invalid_count + 1)) := by
  have hrun := verify_wrapper_run_short prim elapsed wrapper pubkey h
  refine ⟨hrun, by rw [verify_wrapper, hrun], by rw [verify_wrapper, hrun], ?_, ?_⟩
  · intro tm wrappers i hw
    obtain ⟨r, hr, hlen, hget⟩ := sequential_loop_spec prim tm wrappers pubkey
      (initial_results wrappers.length) (initial_results_length _)
    refine ⟨r, hr, hlen, ?_⟩
    rw [sequential_loop_getElem? prim tm wrappers pubkey r hget i wrapper hw, verify_wrapper,
      verify_wrapper_run_short prim (tm i) wrapper pubkey h]
  · intro rest v iv hiv
    simp [count_loop, verify_wrapper, hrun, int_incr, hiv]

/-! ## The canonical wrapper -/

set_option maxRecDepth 1000000 in
theorem canonical_wrapper_eq : hex_to_bytes WRAPPER_HEX = Except.ok canonical_wrapper := by
  decide

set_option maxRecDepth 1000000 in
theorem canonical_wrapper_length : canonical_wrapper.length = 129 := by
  decide

set_option maxRecDepth 1000000 in
theorem canonical_wrapper_det :
    det_to_hex (det_bytes_of (data_of canonical_wrapper)) =
      "2001003ffe040105e4c6ae84e5970447".toList := by
  decide

set_option maxRecDepth 100000 in
/-- C9: the bytes of `WRAPPER_HEX` are 129, and for them `verify_wrapper`
returns the 32-character `det` `2001003ffe040105e4c6ae84e5970447` whatever the
key and the primitive; `compare_hex(det, DET_HEX)` is true, so the test of
line 102 fails only when the primitive rejects the signature. -/
theorem canonical_det (prim : Primitive) (elapsed : Int) (pubkey : List Byte) :
    hex_to_bytes WRAPPER_HEX = Except.ok canonical_wrapper ∧
    canonical_wrapper.length = 129 ∧
    (verify_wrapper prim elapsed canonical_wrapper pubkey).det =
      "2001003ffe040105e4c6ae84e5970447".toList ∧
    (verify_wrapper prim elapsed canonical_wrapper pubkey).det.length = 32 ∧
    compare_hex (verify_wrapper prim elapsed canonical_wrapper pubkey).det DET_HEX = true ∧
    self_test_fails (verify_wrapper prim elapsed canonical_wrapper pubkey) =
      !(prim (sig_of canonical_wrapper) (data_of canonical_wrapper) pubkey == 0) := by
  have hlen : 89 ≤ canonical_wrapper.length := by rw [canonical_wrapper_length]; decide
  have hdet : (verify_wrapper prim elapsed canonical_wrapper pubkey).det =
      "2001003ffe040105e4c6ae84e5970447".toList := by
    rw [verify_wrapper, verify_wrapper_run_long _ _ _ _ hlen]
    exact canonical_wrapper_det
  have hcmp : compare_hex "2001003ffe040105e4c6ae84e5970447".toList DET_HEX = true := by decide
  refine ⟨canonical_wrapper_eq, canonical_wrapper_length, hdet, ?_, ?_, ?_⟩
  · rw [hdet]; decide
  · rw [hdet]; exact hcmp
  · rw [self_test_fails, hdet, hcmp]
    simp [verify_wrapper, verify_wrapper_run_long _ _ _ _ hlen]

/-! ## The corruption step -/

set_option maxRecDepth 1000000 in
theorem xor_ff_ne : ∀ b : Byte, to_uchar (b.val ^^^ 0xFF) ≠ b := by
  decide

theorem data_of_set_getElem? (wrapper : List Byte) (a : Byte) (i : Nat) (hi : i ≠ 10) :
    (data_of (wrapper.set 10 a))[i]? = (data_of wrapper)[i]? := by
  simp only [data_of, List.length_set, List.getElem?_take]
  split
  · rw [List.getElem?_set_ne (Ne.symm hi)]
  · rfl

set_option maxRecDepth 1000000 in
theorem corrupted_canonical_counted :
    corrupt canonical_wrapper = some corrupted_canonical ∧
    ∀ (prim : Primitive) (elapsed : Int) (pubkey : List Byte),
      compare_hex (verify_wrapper prim elapsed corrupted_canonical pubkey).det DET_HEX = true ∧
      ((verify_wrapper prim elapsed corrupted_canonical pubkey).valid &&
          compare_hex (verify_wrapper prim elapsed corrupted_canonical pubkey).det DET_HEX) =
        (prim (sig_of canonical_wrapper) (data_of corrupted_canonical) pubkey == 0) := by
  refine ⟨by decide, fun prim elapsed pubkey => ?_⟩
  have hlen : 89 ≤ corrupted_canonical.length := by decide
  have hsig : sig_of corrupted_canonical = sig_of canonical_wrapper := by decide
  have hcmp : compare_hex (det_to_hex (det_bytes_of (data_of corrupted_canonical))) DET_HEX =
      true := by decide
  rw [verify_wrapper, verify_wrapper_run_long _ _ _ _ hlen, hsig]
  simp [hcmp]

/-- C10: for a wrapper of length `N ≥ 91` the corruption step returns a
wrapper of the same length with the same signature and the same token bytes,
so the same `det`; its message differs from the original at index 10 and
nowhere else. `verify_wrapper` calls the primitive on the unchanged signature
and the changed message, and when the original's token matches `DET_HEX` the
corrupted copy is counted valid exactly when the primitive accepts that call;
so it is for the corrupted copy of the canonical wrapper, whose `det` still
matches `DET_HEX`. -/
theorem corrupt_frame (wrapper : List Byte) (h : 91 ≤ wrapper.length) :
    ∃ corrupted, corrupt wrapper = some corrupted ∧
      corrupted.length = wrapper.length ∧
      sig_of corrupted = sig_of wrapper ∧
      det_bytes_of (data_of corrupted) = det_bytes_of (data_of wrapper) ∧
      (data_of corrupted).length = (data_of wrapper).length ∧
      (data_of corrupted)[10]? ≠ (data_of wrapper)[10]? ∧
      (∀ i, i ≠ 10 → (data_of corrupted)[i]? = (data_of wrapper)[i]?) ∧
      (∀ (prim : Primitive) (elapsed : Int) (pubkey : List Byte),
        verify_wrapper_run prim elapsed corrupted pubkey =
          (VerificationResult.mk (prim (sig_of wrapper) (data_of corrupted) pubkey == 0)
              (verify_wrapper prim elapsed wrapper pubkey).det (some elapsed),
            [PrimCall.mk (sig_of wrapper) (data_of corrupted) pubkey])) ∧
      (∀ (prim : Primitive) (elapsed : Int) (pubkey : List Byte),
        compare_hex (verify_wrapper prim elapsed wrapper pubkey).det DET_HEX = true →
        ((verify_wrapper prim elapsed corrupted pubkey).valid &&
            compare_hex (verify_wrapper prim elapsed corrupted pubkey).det DET_HEX) =
          (prim (sig_of wrapper) (data_of corrupted) pubkey == 0)) ∧
      (corrupt canonical_wrapper = some corrupted_canonical ∧
        ∀ (prim : Primitive) (elapsed : Int) (pubkey : List Byte),
          compare_hex (verify_wrapper prim elapsed corrupted_canonical pubkey).det DET_HEX =
            true ∧
          ((verify_wrapper prim elapsed corrupted_canonical pubkey).valid &&
              compare_hex (verify_wrapper prim elapsed corrupted_canonical pubkey).det
                DET_HEX) =
            (prim (sig_of canonical_wrapper) (data_of corrupted_canonical) pubkey == 0)) := by
  have h10 : 10 < wrapper.length := by omega
  have hcor := corrupt_eq wrapper h10
  generalize hb : to_uchar (wrapper[10].val ^^^ 0xFF) = a at hcor
  have hne : a ≠ wrapper[10] := by rw [← hb]; exact xor_ff_ne _
  have hlen : (wrapper.set 10 a).length = wrapper.length := List.length_set _ _ _
  have hsig : sig_of (wrapper.set 10 a) = sig_of wrapper := by
    simp only [sig_of, List.length_set]
    exact List.drop_set_of_lt a wrapper (by omega)
  have htok : det_bytes_of (data_of (wrapper.set 10 a)) = det_bytes_of (data_of wrapper) := by
    apply List.ext_getElem?
    intro i
    simp only [det_bytes_of, data_of_length, List.length_set, List.getElem?_drop]
    exact data_of_set_getElem? wrapper a _ (by omega)
  have hrun : ∀ (prim : Primitive) (elapsed : Int) (pubkey : List Byte),
      verify_wrapper_run prim elapsed (wrapper.set 10 a) pubkey =
        (VerificationResult.mk (prim (sig_of wrapper) (data_of (wrapper.set 10 a)) pubkey == 0)
            (verify_wrapper prim elapsed wrapper pubkey).det (some elapsed),
          [PrimCall.mk (sig_of wrapper) (data_of (wrapper.set 10 a)) pubkey]) := by
    intro prim elapsed pubkey
    rw [verify_wrapper_run_long _ _ _ _ (by rw [hlen]; omega), hsig, htok, verify_wrapper,
      verify_wrapper_run_long _ _ _ _ (by omega)]
  refine ⟨wrapper.set 10 a, hcor, hlen, hsig, htok, ?_, ?_, ?_, hrun, ?_,
    corrupted_canonical_counted⟩
  · simp [data_of_length]
  · have h1 : (data_of (wrapper.set 10 a))[10]? = some a := by
      simp only [data_of, List.length_set]
      rw [List.getElem?_take_of_lt (by omega), List.getElem?_set_self h10]
    have h2 : (data_of wrapper)[10]? = some wrapper[10] := by
      simp only [data_of]
      rw [List.getElem?_take_of_lt (by omega), List.getElem?_eq_getElem h10]
    rw [h1, h2]
    intro he
    exact hne (Option.some.inj he)
  · intro i hi
    exact data_of_set_getElem? wrapper a i hi
  · intro prim elapsed pubkey hcmp
    rw [verify_wrapper, hrun]
    simp [hcmp]

/-! ## Instances at concrete inputs -/

set_option maxRecDepth 1000000 in
/-- C1 at an 89-byte wrapper. -/
theorem verify_wrapper_slices_witness :
    89 ≤ (sample_wrapper 89).length ∧
    ∃ hdr tok sig : List Byte,
      sample_wrapper 89 = hdr ++ tok ++ sig ∧ tok.length = 16 ∧ sig.length = 64 ∧
      (hdr ++ tok).length = (sample_wrapper 89).length - 64 ∧
      verify_wrapper_run accept_all 7 (sample_wrapper 89) [] =
        (VerificationResult.mk (accept_all sig (hdr ++ tok) [] == 0) (det_to_hex tok) (some 7),
          [PrimCall.mk sig (hdr ++ tok) []]) ∧
      (verify_wrapper accept_all 7 (sample_wrapper 89) []).valid =
        (accept_all sig (hdr ++ tok) [] == 0) ∧
      (verify_wrapper accept_all 7 (sample_wrapper 89) []).det = det_to_hex tok ∧
      (∀ k, k < 64 → sig[k]? = (sample_wrapper 89)[(sample_wrapper 89).length - 64 + k]?) ∧
      (∀ k, k < (sample_wrapper 89).length - 64 → (hdr ++ tok)[k]? = (sample_wrapper 89)[k]?) ∧
      (∀ k, k < 16 → tok[k]? = (sample_wrapper 89)[(sample_wrapper 89).length - 80 + k]?) ∧
      ((sample_wrapper 89).length = 89 → (hdr ++ tok).length = 25) :=
  ⟨by decide, verify_wrapper_slices accept_all 7 (sample_wrapper 89) [] (by decide)⟩

set_option maxRecDepth 1000000 in
/-- C2 at an 88-byte wrapper, the layout 4+4+16+64. -/
theorem verify_wrapper_too_short_witness :
    (sample_wrapper 88).length < 89 ∧
    verify_wrapper_run accept_all 7 (sample_wrapper 88) [] =
      (VerificationResult.mk false [] none, []) ∧
    (verify_wrapper accept_all 7 (sample_wrapper 88) []).valid = false ∧
    (verify_wrapper accept_all 7 (sample_wrapper 88) []).det = [] ∧
    (∀ (tm : Nat → Int) (wrappers : List (List Byte)) (i : Nat),
      wrappers[i]? = some (sample_wrapper 88) →
      ∃ results, sequential_loop accept_all tm wrappers [] (initial_results wrappers.length) =
          some results ∧
        results.length = wrappers.length ∧
        results[i]? = some (VerificationResult.mk false [] none)) ∧
    (∀ (rest : List VerificationResult) (valid_count invalid_count : Int),
      invalid_count < INT_MAX →
      count_loop (verify_wrapper accept_all 7 (sample_wrapper 88) [] :: rest)
          (valid_count, invalid_count) =
        count_loop rest (valid_count, invalid_count + 1)) :=
  ⟨by decide, verify_wrapper_too_short accept_all 7 (sample_wrapper 88) [] (by decide)⟩

set_option maxRecDepth 1000000 in
/-- C7 at the canonical wrapper with the program's counts 1000 and 500, for a
primitive that accepts the canonical message alone. -/
theorem sequential_counts_spec_witness :
    (89 ≤ canonical_wrapper.length ∧
      compare_hex (verify_wrapper accept_canonical 0 canonical_wrapper []).det DET_HEX = true ∧
      accept_canonical (sig_of canonical_wrapper) (data_of canonical_wrapper) [] = 0 ∧
      (∀ c, corrupt canonical_wrapper = some c →
        accept_canonical (sig_of c) (data_of c) [] ≠ 0) ∧
      ((1000 : Nat) : Int) ≤ INT_MAX ∧ ((500 : Nat) : Int) ≤ INT_MAX) ∧
    ∃ corrupted, corrupt canonical_wrapper = some corrupted ∧
      make_wrappers 1000 500 canonical_wrapper =
        some (List.replicate 1000 canonical_wrapper ++ List.replicate 500 corrupted) ∧
      sequential_counts accept_canonical (fun _ => 1) 1000 500 canonical_wrapper [] =
        some (((1000 : Nat) : Int), ((500 : Nat) : Int)) :=
  have hrej : ∀ c, corrupt canonical_wrapper = some c →
      accept_canonical (sig_of c) (data_of c) [] ≠ 0 := by
    intro c hc
    have h : corrupt canonical_wrapper = some corrupted_canonical := by decide
    rw [h] at hc
    cases hc
    decide
  ⟨⟨by decide, by decide, by decide, hrej, by decide, by decide⟩,
    sequential_counts_spec accept_canonical (fun _ => 1) 1000 500 canonical_wrapper []
      (by decide) (by decide) (by decide) hrej (by decide) (by decide)⟩

set_option maxRecDepth 1000000 in
/-- C8 at a dataset of three wrappers, the parallel iterations in the order 2, 0, 1. -/
theorem parallel_matches_sequential_witness :
    [2, 0, 1].Perm (parallel_indices sample_dataset) ∧
    ∃ seq par : List VerificationResult,
      sequential_loop accept_canonical sample_times_seq sample_dataset []
          (initial_results sample_dataset.length) = some seq ∧
      seq.length = sample_dataset.length ∧
      (∀ (i : Nat) (hi : i < sample_dataset.length),
        seq[i]? = some (verify_wrapper accept_canonical (sample_times_seq i) sample_dataset[i] [])) ∧
      parallel_loop accept_canonical sample_times_par sample_dataset [] [2, 0, 1] seq =
        some par ∧
      par.length = sample_dataset.length ∧
      (∀ (i : Nat), i < sample_dataset.length →
        ∃ rs rp, seq[i]? = some rs ∧ par[i]? = some rp ∧
          rp.valid = rs.valid ∧ rp.det = rs.det) ∧
      (∀ (order0 : List Nat) (r0 : List VerificationResult),
        order0.Perm (List.range sample_dataset.length) → r0.length = sample_dataset.length →
        ∃ par0, parallel_loop accept_canonical sample_times_par sample_dataset [] order0 r0 =
            some par0 ∧
          par0.length = sample_dataset.length ∧
          ∀ (i : Nat) (hi : i < sample_dataset.length),
            par0[i]? = some (verify_wrapper accept_canonical (sample_times_par i)
              sample_dataset[i] [])) ∧
      (sample_dataset.length < 2 ^ 31 →
        parallel_indices sample_dataset = List.range sample_dataset.length) :=
  ⟨by decide, parallel_matches_sequential accept_canonical sample_times_seq sample_times_par
    sample_dataset [] [2, 0, 1] (by decide)⟩

set_option maxRecDepth 1000000 in
/-- C10 at the canonical wrapper. -/
theorem corrupt_frame_witness :
    91 ≤ canonical_wrapper.length ∧
    ∃ corrupted, corrupt canonical_wrapper = some corrupted ∧
      corrupted.length = canonical_wrapper.length ∧
      sig_of corrupted = sig_of canonical_wrapper ∧
      det_bytes_of (data_of corrupted) = det_bytes_of (data_of canonical_wrapper) ∧
      (data_of corrupted).length = (data_of canonical_wrapper).length ∧
      (data_of corrupted)[10]? ≠ (data_of canonical_wrapper)[10]? ∧
      (∀ i, i ≠ 10 → (data_of corrupted)[i]? = (data_of canonical_wrapper)[i]?) ∧
      (∀ (prim : Primitive) (elapsed : Int) (pubkey : List Byte),
        verify_wrapper_run prim elapsed corrupted pubkey =
          (VerificationResult.mk
              (prim (sig_of canonical_wrapper) (data_of corrupted) pubkey == 0)
              (verify_wrapper prim elapsed canonical_wrapper pubkey).det (some elapsed),
            [PrimCall.mk (sig_of canonical_wrapper) (data_of corrupted) pubkey])) ∧
      (∀ (prim : Primitive) (elapsed : Int) (pubkey : List Byte),
        compare_hex (verify_wrapper prim elapsed canonical_wrapper pubkey).det DET_HEX = true →
        ((verify_wrapper prim elapsed corrupted pubkey).valid &&
            compare_hex (verify_wrapper prim elapsed corrupted pubkey).det DET_HEX) =
          (prim (sig_of canonical_wrapper) (data_of corrupted) pubkey == 0)) ∧
      (corrupt canonical_wrapper = some corrupted_canonical ∧
        ∀ (prim : Primitive) (elapsed : Int) (pubkey : List Byte),
          compare_hex (verify_wrapper prim elapsed corrupted_canonical pubkey).det DET_HEX =
            true ∧
          ((verify_wrapper prim elapsed corrupted_canonical pubkey).valid &&
              compare_hex (verify_wrapper prim elapsed corrupted_canonical pubkey).det
                DET_HEX) =
            (prim (sig_of canonical_wrapper) (data_of corrupted_canonical) pubkey == 0)) :=
  ⟨by decide, corrupt_frame canonical_wrapper (by decide)⟩

end DripAuth
